import Mathlib

/-!
Verification of the core algorithms of the sunburst Power BI visual:

* hierarchy construction from row records
  (src/visual.ts buildHierarchyFromDataView, and the variant
  buildHierarchyFromPowerBI together with its label normalizer norm),
* the d3 partition layout (d3.hierarchy().sum() followed by
  d3.partition().size([2 * Math.PI, R])),
* the zoomTo focus transform and the breadcrumb fallback.

Modelling conventions: JavaScript numbers are modelled as exact rationals;
the constant 2 * Math.PI that the code multiplies with is an arbitrary
rational parameter tau; cell values of category columns are Option String
(none stands for null/undefined).  Where the IEEE special values matter
(division by a zero angular span in zoomTo) the arithmetic is modelled
explicitly on JSNum, which carries NaN and the infinities.  JavaScript
String.prototype.trim and toLowerCase are modelled on the character list.
-/

/-- JS String.prototype.trim: whitespace removed from both ends. -/
def trimStr (s : String) : String :=
  String.mk (((s.data.dropWhile Char.isWhitespace).reverse.dropWhile Char.isWhitespace).reverse)

/-- JS String.prototype.toLowerCase (ASCII case mapping). -/
def lowerStr (s : String) : String :=
  String.mk (s.data.map Char.toLower)

/-- A cell of a category column: none models null/undefined. -/
abbrev Cell := Option String

/-- isBlank from src/visual.ts: null, undefined, or a string whose trim is empty. -/
def isBlankCell : Cell → Bool
  | none => true
  | some s => trimStr s == ""

/-- isBlank applied to an already-extracted string (the names in the row loop). -/
def isBlankStr (s : String) : Bool :=
  trimStr s == ""

/-- toText from src/visual.ts: blank collapses to the empty string, otherwise String(v). -/
def toText (v : Cell) : String :=
  match v with
  | none => ""
  | some s => if trimStr s == "" then "" else s

/-- One input row: the Level1..Level4 cells in role order, and the measure
value bound to the Value role, already passed through JS Number();
none models a NaN result (an unparseable measure cell). -/
structure Row where
  labels : List Cell
  measure : Option ℚ

/-- The names array of the row loop: toText applied to every level cell. -/
def rowNames (r : Row) : List String :=
  r.labels.map toText

/-- deepestIdx of src/visual.ts: the index of the deepest (right-most)
non-blank level name; none when every level is blank (row skipped). -/
def lastNonBlank : List String → Option Nat
  | [] => none
  | n :: rest =>
    match lastNonBlank rest with
    | some k => some (k + 1)
    | none => if isBlankStr n then none else some 0

/-- The per-row increment: the measure value when a measure column is bound
to the Value role (NaN becomes 0), otherwise the default 1. -/
def rowInc (hasValue : Bool) (r : Row) : ℚ :=
  if hasValue then
    match r.measure with
    | none => 0
    | some q => q
  else 1

/-- The insertion walk of src/visual.ts: levels 0..deepestIdx, stopping at
the first blank name (the break in the loop). -/
def walkPath (names : List String) (k : Nat) : List String :=
  (names.take (k + 1)).takeWhile (fun nm => !isBlankStr nm)

/-- BuildNode of src/visual.ts: name, accumulated value, insertion-ordered
children (the Map preserves insertion order; absent map modelled as []). -/
inductive BN : Type where
  | node (name : String) (value : ℚ) (children : List BN)

def BN.name : BN → String
  | .node n _ _ => n

def BN.value : BN → ℚ
  | .node _ v _ => v

def BN.children : BN → List BN
  | .node _ _ cs => cs

/-- ensureChild of src/visual.ts combined with the descent: look the label up
among the children; reuse the existing node, otherwise push a fresh node
with value 0 at the end; then apply the rest of the walk to that child. -/
def setChild (cs : List BN) (nm : String) (upd : BN → BN) : List BN :=
  match cs with
  | [] => [upd (BN.node nm 0 [])]
  | c :: rest => if c.name = nm then upd c :: rest else c :: setChild rest nm upd

/-- cur.value += inc at the terminal node of the walk. -/
def bump (t : BN) (inc : ℚ) : BN :=
  match t with
  | .node n v cs => .node n (v + inc) cs

/-- The walk of src/visual.ts as a pure update: follow/create children along
the path and accumulate inc at the terminal node. -/
def addAt (t : BN) (path : List String) (inc : ℚ) : BN :=
  match path with
  | [] => bump t inc
  | nm :: rest =>
    match t with
    | .node n v cs => .node n v (setChild cs nm (fun c => addAt c rest inc))

/-- One iteration of the row loop of buildHierarchyFromDataView: skip rows
with no non-blank level, skip rows whose increment is 0 (measure 0 or NaN),
otherwise insert along the truncated path. -/
def processRow (hasValue : Bool) (t : BN) (r : Row) : BN :=
  match lastNonBlank (rowNames r) with
  | none => t
  | some k =>
    let inc := rowInc hasValue r
    if inc = 0 then t
    else addAt t (walkPath (rowNames r) k) inc

/-- The whole row loop, starting from the synthetic root. -/
def buildRoot (hasValue : Bool) (rows : List Row) : BN :=
  rows.foldl (processRow hasValue) (BN.node "root" 0 [])

/-- NodeData of src/visual.ts: optional value (assigned on leaves only),
absent children array modelled as []. -/
inductive ND : Type where
  | node (name : String) (value : Option ℚ) (children : List ND)

mutual
/-- convert of buildHierarchyFromDataView: a childless BuildNode keeps its
accumulated value, an internal node drops it and keeps only the children. -/
def convert : BN → ND
  | .node n v [] => .node n (some v) []
  | .node n _ (c :: cs) => .node n none (convertF (c :: cs))
def convertF : List BN → List ND
  | [] => []
  | c :: cs => convert c :: convertF cs
end

/-- The NodeData returned by buildHierarchyFromDataView: a synthetic root
without value whose children are the converted build children. -/
def buildData (hasValue : Bool) (rows : List Row) : ND :=
  .node "root" none (convertF (buildRoot hasValue rows).children)

/-- A d3 hierarchy node after .sum(): every node carries its computed value. -/
inductive HN : Type where
  | node (name : String) (value : ℚ) (children : List HN)

def HN.name : HN → String
  | .node n _ _ => n

def HN.value : HN → ℚ
  | .node _ v _ => v

def HN.children : HN → List HN
  | .node _ _ cs => cs

/-- Sum of the computed values of a list of nodes. -/
def valSum (l : List HN) : ℚ :=
  (l.map HN.value).sum

mutual
/-- d3.hierarchy(data).sum(d => d.value ?? 0): post-order, every node's
value is its own contribution plus the sum of its children's values. -/
def sumTree : ND → HN
  | .node n v cs => .node n (v.getD 0 + valSum (sumForest cs)) (sumForest cs)
def sumForest : List ND → List HN
  | [] => []
  | c :: cs => sumTree c :: sumForest cs
end

mutual
/-- Sum of the accumulated values of the leaves of a build tree. -/
def leafSum : BN → ℚ
  | .node _ v [] => v
  | .node _ _ (c :: cs) => leafForest (c :: cs)
def leafForest : List BN → ℚ
  | [] => 0
  | c :: cs => leafSum c + leafForest cs
end

mutual
/-- Total accumulated value of a build tree (own value plus descendants). -/
def subSum : BN → ℚ
  | .node _ v cs => v + forestSum cs
def forestSum : List BN → ℚ
  | [] => 0
  | c :: cs => subSum c + forestSum cs
end

mutual
/-- All nodes of a summed hierarchy (the node itself and its descendants). -/
def allHN : HN → List HN
  | .node n v cs => .node n v cs :: allHNF cs
def allHNF : List HN → List HN
  | [] => []
  | c :: cs => allHN c ++ allHNF cs
end

/-- Is the first level name of the row blank (or the row empty)? -/
def headBlank (names : List String) : Bool :=
  match names with
  | [] => true
  | nm :: _ => isBlankStr nm

/-- Modelled from the spec: the root weight that claim C1 asserts — the sum
of the weights (absent weight defaulting to 1) of all input records that
contributed a non-empty truncated path. -/
def specRootWeight (hasValue : Bool) (rows : List Row) : ℚ :=
  (rows.map (fun r =>
    if (rowNames r).takeWhile (fun nm => !isBlankStr nm) = [] then 0
    else rowInc hasValue r)).sum

/-- norm of buildHierarchyFromPowerBI (the part_000 variant): null stays
null, the string is trimmed, an empty trim is null, and the
case-insensitive sentinels "null", "(blank)", "(empty)" are null. -/
def normPB (v : Cell) : Option String :=
  match v with
  | none => none
  | some s0 =>
    let s := trimStr s0
    if s = "" then none
    else if lowerStr s = "null" ∨ lowerStr s = "(blank)" ∨ lowerStr s = "(empty)" then none
    else some s

/-- The per-row path of buildHierarchyFromPowerBI: normalized labels up to
the first missing level (the break in the loop). -/
def rowPathPB : List Cell → List String
  | [] => []
  | c :: rest =>
    match normPB c with
    | none => []
    | some s => s :: rowPathPB rest

/-- buildHierarchyFromPowerBI: count 1 at the terminal of every row whose
normalized path is non-empty; the root is named "Wien" in that variant. -/
def buildPB (rows : List (List Cell)) : BN :=
  rows.foldl
    (fun t cells =>
      let path := rowPathPB cells
      if path = [] then t else addAt t path 1)
    (BN.node "Wien" 0 [])

/-- A layout rectangle: angular span [x0, x1] and radial band [y0, y1]
(the x0/x1/y0/y1 fields of d3 partition nodes). -/
@[ext]
structure Rect where
  x0 : ℚ
  x1 : ℚ
  y0 : ℚ
  y1 : ℚ
deriving DecidableEq, Repr

/-- Math.max(0, Math.min(1, x)). -/
def clamp01 (x : ℚ) : ℚ :=
  max 0 (min 1 x)

/-- zoomTo of src/visual.ts: the target rectangle of node d for focus p.
tau stands for the constant 2 * Math.PI of the code. -/
def zoomTarget (tau : ℚ) (d p : Rect) : Rect where
  x0 := clamp01 ((d.x0 - p.x0) / (p.x1 - p.x0)) * tau
  x1 := clamp01 ((d.x1 - p.x0) / (p.x1 - p.x0)) * tau
  y0 := max 0 (d.y0 - p.y0)
  y1 := max 0 (d.y1 - p.y0)

/-- One zoomTo call as a transformer of the target assignment: the new
targets are computed from the static rectangles alone; the previous
assignment is discarded. -/
def zoomStep (tau : ℚ) (p : Rect) (_targets : Rect → Rect) : Rect → Rect :=
  fun d => zoomTarget tau d p

/-- A JavaScript number: finite, an infinity, or NaN. -/
inductive JSNum : Type where
  | fin (q : ℚ)
  | posInf
  | negInf
  | nan
deriving DecidableEq, Repr

/-- IEEE subtraction (the model has a single zero). -/
def jsSub : JSNum → JSNum → JSNum
  | .nan, _ => .nan
  | _, .nan => .nan
  | .posInf, .posInf => .nan
  | .posInf, _ => .posInf
  | .negInf, .negInf => .nan
  | .negInf, _ => .negInf
  | .fin _, .posInf => .negInf
  | .fin _, .negInf => .posInf
  | .fin a, .fin b => .fin (a - b)

/-- IEEE division: 0/0 is NaN, x/0 is a signed infinity, inf/inf is NaN. -/
def jsDiv : JSNum → JSNum → JSNum
  | .nan, _ => .nan
  | _, .nan => .nan
  | .posInf, .posInf => .nan
  | .posInf, .negInf => .nan
  | .negInf, .posInf => .nan
  | .negInf, .negInf => .nan
  | .posInf, .fin b => if 0 ≤ b then .posInf else .negInf
  | .negInf, .fin b => if 0 ≤ b then .negInf else .posInf
  | .fin _, .posInf => .fin 0
  | .fin _, .negInf => .fin 0
  | .fin a, .fin b =>
    if b = 0 then
      if a = 0 then .nan else if 0 < a then .posInf else .negInf
    else .fin (a / b)

/-- IEEE multiplication: 0 times an infinity is NaN. -/
def jsMul : JSNum → JSNum → JSNum
  | .nan, _ => .nan
  | _, .nan => .nan
  | .fin a, .fin b => .fin (a * b)
  | .posInf, .fin b => if b = 0 then .nan else if 0 < b then .posInf else .negInf
  | .negInf, .fin b => if b = 0 then .nan else if 0 < b then .negInf else .posInf
  | .fin a, .posInf => if a = 0 then .nan else if 0 < a then .posInf else .negInf
  | .fin a, .negInf => if a = 0 then .nan else if 0 < a then .negInf else .posInf
  | .posInf, .posInf => .posInf
  | .posInf, .negInf => .negInf
  | .negInf, .posInf => .negInf
  | .negInf, .negInf => .posInf

/-- Math.min: NaN-propagating minimum. -/
def jsMin : JSNum → JSNum → JSNum
  | .nan, _ => .nan
  | _, .nan => .nan
  | .negInf, _ => .negInf
  | _, .negInf => .negInf
  | .posInf, b => b
  | a, .posInf => a
  | .fin a, .fin b => .fin (min a b)

/-- Math.max: NaN-propagating maximum. -/
def jsMax : JSNum → JSNum → JSNum
  | .nan, _ => .nan
  | _, .nan => .nan
  | .posInf, _ => .posInf
  | _, .posInf => .posInf
  | .negInf, b => b
  | a, .negInf => a
  | .fin a, .fin b => .fin (max a b)

/-- A target rectangle with JavaScript-number components. -/
structure JSRect where
  x0 : JSNum
  x1 : JSNum
  y0 : JSNum
  y1 : JSNum
deriving DecidableEq, Repr

/-- Math.max(0, Math.min(1, x)) on JavaScript numbers. -/
def jsClamp01 (x : JSNum) : JSNum :=
  jsMax (.fin 0) (jsMin (.fin 1) x)

/-- zoomTo of src/visual.ts with the arithmetic carried out in JavaScript
number semantics (the static rectangles of the partition are finite). -/
def zoomTargetJS (tau : ℚ) (d p : Rect) : JSRect where
  x0 := jsMul (jsClamp01 (jsDiv (jsSub (.fin d.x0) (.fin p.x0))
          (jsSub (.fin p.x1) (.fin p.x0)))) (.fin tau)
  x1 := jsMul (jsClamp01 (jsDiv (jsSub (.fin d.x1) (.fin p.x0))
          (jsSub (.fin p.x1) (.fin p.x0)))) (.fin tau)
  y0 := jsMax (.fin 0) (jsSub (.fin d.y0) (.fin p.y0))
  y1 := jsMax (.fin 0) (jsSub (.fin d.y1) (.fin p.y0))

mutual
/-- d3 node.height: length of the longest downward path. -/
def heightHN : HN → Nat
  | .node _ _ cs => heightF cs
def heightF : List HN → Nat
  | [] => 0
  | c :: cs => max (heightHN c + 1) (heightF cs)
end

/-- A partitioned node: the computed value, the assigned rectangle, and the
partitioned children. -/
inductive PNode : Type where
  | node (name : String) (value : ℚ) (rect : Rect) (children : List PNode)

def PNode.name : PNode → String
  | .node n _ _ _ => n

def PNode.value : PNode → ℚ
  | .node _ v _ _ => v

def PNode.rect : PNode → Rect
  | .node _ _ r _ => r

def PNode.children : PNode → List PNode
  | .node _ _ _ cs => cs

/-- positionNode of d3 partition (padding 0): an inverted span collapses to
its midpoint, first in x, then in y. -/
def fixRect (r : Rect) : Rect :=
  let a := if r.x1 < r.x0 then Rect.mk ((r.x0 + r.x1) / 2) ((r.x0 + r.x1) / 2) r.y0 r.y1 else r
  if a.y1 < a.y0 then Rect.mk a.x0 a.x1 ((a.y0 + a.y1) / 2) ((a.y0 + a.y1) / 2) else a

mutual
/-- d3 partition, one node: the node keeps its (fixed) raw rectangle; its
children are diced over the raw angular span into the radial band of the
next depth.  treemapDice guards the division: a parent with value 0 gives
k = 0 (JavaScript falsy guard), so all its children get zero-width spans. -/
def positionSub (dy : ℚ) (n : Nat) (depth : Nat) (raw : Rect) : HN → PNode
  | .node nm v cs =>
    let k : ℚ := if v = 0 then 0 else (raw.x1 - raw.x0) / v
    .node nm v (fixRect raw)
      (positionChildren dy n depth (dy * ((depth : ℚ) + 1) / (n : ℚ))
        (dy * ((depth : ℚ) + 2) / (n : ℚ)) k raw.x0 cs)
/-- treemapDice: the children are laid out left to right, each spanning its
value times k, starting where the previous one ended. -/
def positionChildren (dy : ℚ) (n : Nat) (depth : Nat) (y0 y1 k x0 : ℚ) : List HN → List PNode
  | [] => []
  | c :: cs =>
    positionSub dy n (depth + 1) (Rect.mk x0 (x0 + HN.value c * k) y0 y1) c ::
      positionChildren dy n depth y0 y1 k (x0 + HN.value c * k) cs
end

/-- d3.partition().size([dx, dy]) applied to a summed hierarchy: n is
root.height + 1, the root starts at the full angular span [0, dx] and the
radial band [0, dy/n]. -/
def d3partition (dx dy : ℚ) (t : HN) : PNode :=
  positionSub dy (heightHN t + 1) 0 (Rect.mk 0 dx 0 (dy / ((heightHN t + 1 : Nat) : ℚ))) t

mutual
/-- Every node of a partitioned tree with its depth and rectangle. -/
def pdescend (d : Nat) : PNode → List (Nat × Rect)
  | .node _ _ r cs => (d, r) :: pdescendF (d + 1) cs
def pdescendF (d : Nat) : List PNode → List (Nat × Rect)
  | [] => []
  | c :: cs => pdescend d c ++ pdescendF d cs
end

/-- The path key of the part_000 variant: ancestor names from the root down,
joined with "/". -/
def keyOf (names : List String) : String :=
  String.intercalate "/" names

mutual
/-- Every node of a partitioned tree paired with its ancestor-name path
(root name included, as in node.ancestors().reverse()). -/
def descKeys (anc : List String) : PNode → List (List String × PNode)
  | .node nm v r cs => (anc ++ [nm], .node nm v r cs) :: descKeysF (anc ++ [nm]) cs
def descKeysF (anc : List String) : List PNode → List (List String × PNode)
  | [] => []
  | c :: cs => descKeys anc c ++ descKeysF anc cs
end

/-- this.nodes: the descendants of the root with depth > 0 (ancestor path
longer than one name). -/
def crumbNodes (root : PNode) : List (List String × PNode) :=
  (descKeys [] root).filter (fun e => 1 < e.1.length)

/-- The breadcrumb click handler of updateCrumbs: find the node whose path
key equals the stored key, falling back to the root when none matches. -/
def crumbTarget (root : PNode) (key : String) : PNode :=
  (((crumbNodes root).find? (fun e => keyOf e.1 == key)).map (fun e => e.2)).getD root

/-- Concrete rows for the root-weight counterexample: a record ["A"] and a
record ["A", "B"], no measure bound. -/
def c1rows : List Row :=
  [Row.mk [some "A"] none, Row.mk [some "A", some "B"] none]

/-- A one-child tree for the radial-band counterexample. -/
def c3tree : HN :=
  HN.node "root" 1 [HN.node "A" 1 []]

section ClampLemmas

theorem clamp01_nonneg (x : ℚ) : 0 ≤ clamp01 x :=
  le_max_left 0 _

theorem clamp01_le_one (x : ℚ) : clamp01 x ≤ 1 :=
  max_le (by norm_num) (min_le_left 1 x)

theorem clamp01_mono {x y : ℚ} (h : x ≤ y) : clamp01 x ≤ clamp01 y :=
  max_le_max le_rfl (min_le_min le_rfl h)

theorem clamp01_of_nonpos {x : ℚ} (h : x ≤ 0) : clamp01 x = 0 := by
  unfold clamp01
  have h1 : min 1 x = x := min_eq_right (le_trans h (by norm_num))
  rw [h1]
  exact max_eq_left h

theorem clamp01_of_one_le {x : ℚ} (h : 1 ≤ x) : clamp01 x = 1 := by
  unfold clamp01
  have h1 : min 1 x = 1 := min_eq_left h
  rw [h1]
  exact max_eq_right (by norm_num)

theorem clamp01_of_mem {x : ℚ} (h0 : 0 ≤ x) (h1 : x ≤ 1) : clamp01 x = x := by
  unfold clamp01
  rw [min_eq_right h1]
  exact max_eq_right h0

end ClampLemmas

section ZoomLemmas

theorem zoomTarget_ordered (tau : ℚ) (d p : Rect) (htau : 0 ≤ tau) (hp : p.x0 < p.x1)
    (hdx : d.x0 ≤ d.x1) (hdy : d.y0 ≤ d.y1) :
    0 ≤ (zoomTarget tau d p).x0 ∧
    (zoomTarget tau d p).x0 ≤ (zoomTarget tau d p).x1 ∧
    (zoomTarget tau d p).x1 ≤ tau ∧
    0 ≤ (zoomTarget tau d p).y0 ∧
    (zoomTarget tau d p).y0 ≤ (zoomTarget tau d p).y1 := by
  have hw : (0 : ℚ) < p.x1 - p.x0 := sub_pos.mpr hp
  refine ⟨?_, ?_, ?_, ?_, ?_⟩
  · exact mul_nonneg (clamp01_nonneg _) htau
  · apply mul_le_mul_of_nonneg_right _ htau
    apply clamp01_mono
    exact (div_le_div_iff_of_pos_right hw).mpr (by linarith)
  · calc clamp01 ((d.x1 - p.x0) / (p.x1 - p.x0)) * tau
        ≤ 1 * tau := mul_le_mul_of_nonneg_right (clamp01_le_one _) htau
      _ = tau := one_mul tau
  · exact le_max_left 0 _
  · exact max_le_max le_rfl (by linarith)

end ZoomLemmas

/-- C9: for every focus p with positive angular span and non-negative inner
radius, and every well-ordered node rectangle d, the zoom target satisfies
0 ≤ angleStart ≤ angleEnd ≤ tau (the full circle) and
0 ≤ radiusInner ≤ radiusOuter. -/
theorem spec_c9 (tau : ℚ) (d p : Rect) (htau : 0 < tau) (hp : p.x0 < p.x1) (hpy : 0 ≤ p.y0)
    (hdx0 : 0 ≤ d.x0) (hdx : d.x0 ≤ d.x1) (hdy0 : 0 ≤ d.y0) (hdy : d.y0 ≤ d.y1) :
    0 ≤ (zoomTarget tau d p).x0 ∧
    (zoomTarget tau d p).x0 ≤ (zoomTarget tau d p).x1 ∧
    (zoomTarget tau d p).x1 ≤ tau ∧
    0 ≤ (zoomTarget tau d p).y0 ∧
    (zoomTarget tau d p).y0 ≤ (zoomTarget tau d p).y1 :=
  zoomTarget_ordered tau d p htau.le hp hdx hdy

/-- Witness for C9 at tau = 7, d = (1, 3, 2, 5), p = (0, 2, 1, 3). -/
theorem spec_c9_witness :
    ((0 : ℚ) < 7 ∧ (0 : ℚ) < 2 ∧ (0 : ℚ) ≤ 1 ∧ (0 : ℚ) ≤ 1 ∧ (1 : ℚ) ≤ 3 ∧ (0 : ℚ) ≤ 2 ∧ (2 : ℚ) ≤ 5) ∧
    (0 ≤ (zoomTarget 7 (Rect.mk 1 3 2 5) (Rect.mk 0 2 1 3)).x0 ∧
      (zoomTarget 7 (Rect.mk 1 3 2 5) (Rect.mk 0 2 1 3)).x0 ≤
        (zoomTarget 7 (Rect.mk 1 3 2 5) (Rect.mk 0 2 1 3)).x1 ∧
      (zoomTarget 7 (Rect.mk 1 3 2 5) (Rect.mk 0 2 1 3)).x1 ≤ 7 ∧
      0 ≤ (zoomTarget 7 (Rect.mk 1 3 2 5) (Rect.mk 0 2 1 3)).y0 ∧
      (zoomTarget 7 (Rect.mk 1 3 2 5) (Rect.mk 0 2 1 3)).y0 ≤
        (zoomTarget 7 (Rect.mk 1 3 2 5) (Rect.mk 0 2 1 3)).y1) :=
  ⟨⟨by norm_num, by norm_num, by norm_num, by norm_num, by norm_num, by norm_num, by norm_num⟩,
    spec_c9 7 (Rect.mk 1 3 2 5) (Rect.mk 0 2 1 3) (by norm_num) (by norm_num) (by norm_num)
      (by norm_num) (by norm_num) (by norm_num) (by norm_num)⟩

/-- C2: for every node d and focus p, the zoom target is exactly
clamp01((x - p.x0)/(p.x1 - p.x0)) * tau angularly and max(0, y - p.y0)
radially; consequently the focus fills the full circle with radial origin
0, a node whose angular span lies outside the focus span collapses to zero
width, and a descendant's span expands proportionally. -/
theorem spec_c2 (tau : ℚ) (d p : Rect) (htau : 0 < tau) (hp : p.x0 < p.x1)
    (hdx : d.x0 ≤ d.x1) (hpy : p.y0 ≤ p.y1) :
    zoomTarget tau d p =
      Rect.mk (clamp01 ((d.x0 - p.x0) / (p.x1 - p.x0)) * tau)
        (clamp01 ((d.x1 - p.x0) / (p.x1 - p.x0)) * tau)
        (max 0 (d.y0 - p.y0)) (max 0 (d.y1 - p.y0)) ∧
    zoomTarget tau p p = Rect.mk 0 tau 0 (p.y1 - p.y0) ∧
    (d.x1 ≤ p.x0 → (zoomTarget tau d p).x0 = 0 ∧ (zoomTarget tau d p).x1 = 0) ∧
    (p.x1 ≤ d.x0 → (zoomTarget tau d p).x0 = tau ∧ (zoomTarget tau d p).x1 = tau) ∧
    (p.x0 ≤ d.x0 → d.x1 ≤ p.x1 →
      (zoomTarget tau d p).x1 - (zoomTarget tau d p).x0 =
        (d.x1 - d.x0) / (p.x1 - p.x0) * tau) := by
  have hw : (0 : ℚ) < p.x1 - p.x0 := sub_pos.mpr hp
  refine ⟨rfl, ?_, ?_, ?_, ?_⟩
  · unfold zoomTarget
    have h0 : (p.x0 - p.x0) / (p.x1 - p.x0) = 0 := by rw [sub_self, zero_div]
    have h1 : (p.x1 - p.x0) / (p.x1 - p.x0) = 1 := div_self (ne_of_gt hw)
    rw [h0, h1, clamp01_of_nonpos le_rfl, clamp01_of_one_le le_rfl]
    simp [sub_self, max_eq_right (sub_nonneg.mpr hpy)]
  · intro h
    have r1 : (d.x1 - p.x0) / (p.x1 - p.x0) ≤ 0 :=
      div_nonpos_of_nonpos_of_nonneg (by linarith) hw.le
    have r0 : (d.x0 - p.x0) / (p.x1 - p.x0) ≤ 0 :=
      div_nonpos_of_nonpos_of_nonneg (by linarith) hw.le
    constructor
    · show clamp01 _ * tau = 0
      rw [clamp01_of_nonpos r0, zero_mul]
    · show clamp01 _ * tau = 0
      rw [clamp01_of_nonpos r1, zero_mul]
  · intro h
    have r0 : 1 ≤ (d.x0 - p.x0) / (p.x1 - p.x0) :=
      (one_le_div hw).mpr (by linarith)
    have r1 : 1 ≤ (d.x1 - p.x0) / (p.x1 - p.x0) :=
      (one_le_div hw).mpr (by linarith)
    constructor
    · show clamp01 _ * tau = tau
      rw [clamp01_of_one_le r0, one_mul]
    · show clamp01 _ * tau = tau
      rw [clamp01_of_one_le r1, one_mul]
  · intro h0 h1
    have m0 : clamp01 ((d.x0 - p.x0) / (p.x1 - p.x0)) = (d.x0 - p.x0) / (p.x1 - p.x0) :=
      clamp01_of_mem (div_nonneg (by linarith) hw.le) ((div_le_one hw).mpr (by linarith))
    have m1 : clamp01 ((d.x1 - p.x0) / (p.x1 - p.x0)) = (d.x1 - p.x0) / (p.x1 - p.x0) :=
      clamp01_of_mem (div_nonneg (by linarith) hw.le) ((div_le_one hw).mpr (by linarith))
    show clamp01 _ * tau - clamp01 _ * tau = _
    rw [m0, m1, ← sub_mul, div_sub_div_same]
    congr 2
    ring

/-- Witness for C2 at tau = 7, d = (1, 2, 3, 4), p = (0, 4, 1, 5). -/
theorem spec_c2_witness :
    ((0 : ℚ) < 7 ∧ (0 : ℚ) < 4 ∧ (1 : ℚ) ≤ 2 ∧ (1 : ℚ) ≤ 5) ∧
    (zoomTarget 7 (Rect.mk 1 2 3 4) (Rect.mk 0 4 1 5) =
      Rect.mk (clamp01 ((1 - 0) / (4 - 0)) * 7) (clamp01 ((2 - 0) / (4 - 0)) * 7)
        (max 0 (3 - 1)) (max 0 (4 - 1)) ∧
      zoomTarget 7 (Rect.mk 0 4 1 5) (Rect.mk 0 4 1 5) = Rect.mk 0 7 0 (5 - 1) ∧
      ((2 : ℚ) ≤ 0 → (zoomTarget 7 (Rect.mk 1 2 3 4) (Rect.mk 0 4 1 5)).x0 = 0 ∧
        (zoomTarget 7 (Rect.mk 1 2 3 4) (Rect.mk 0 4 1 5)).x1 = 0) ∧
      ((4 : ℚ) ≤ 1 → (zoomTarget 7 (Rect.mk 1 2 3 4) (Rect.mk 0 4 1 5)).x0 = 7 ∧
        (zoomTarget 7 (Rect.mk 1 2 3 4) (Rect.mk 0 4 1 5)).x1 = 7) ∧
      ((0 : ℚ) ≤ 1 → (2 : ℚ) ≤ 4 →
        (zoomTarget 7 (Rect.mk 1 2 3 4) (Rect.mk 0 4 1 5)).x1 -
          (zoomTarget 7 (Rect.mk 1 2 3 4) (Rect.mk 0 4 1 5)).x0 = (2 - 1) / (4 - 0) * 7)) :=
  ⟨⟨by norm_num, by norm_num, by norm_num, by norm_num⟩,
    spec_c2 7 (Rect.mk 1 2 3 4) (Rect.mk 0 4 1 5) (by norm_num) (by norm_num) (by norm_num)
      (by norm_num)⟩

/-- C4: with the root (full span [0, tau], inner radius 0) as focus, the zoom
target of every partition rectangle equals the rectangle itself; and after
zooming to any node X, zooming back to the root restores every target to the
static rectangle exactly (targets are recomputed from the static geometry
alone). -/
theorem spec_c4 (tau ry : ℚ) (d x : Rect) (htau : 0 < tau) (h0 : 0 ≤ d.x0) (h1 : d.x0 ≤ d.x1)
    (h2 : d.x1 ≤ tau) (h3 : 0 ≤ d.y0) (h4 : d.y0 ≤ d.y1) :
    zoomTarget tau d (Rect.mk 0 tau 0 ry) = d ∧
    zoomStep tau (Rect.mk 0 tau 0 ry) (zoomStep tau x (fun r => r)) d = d := by
  have key : zoomTarget tau d (Rect.mk 0 tau 0 ry) = d := by
    unfold zoomTarget
    have hx0 : clamp01 ((d.x0 - 0) / (tau - 0)) * tau = d.x0 := by
      rw [sub_zero, sub_zero,
        clamp01_of_mem (div_nonneg h0 htau.le) ((div_le_one htau).mpr (by linarith)),
        div_mul_cancel₀ _ (ne_of_gt htau)]
    have hx1 : clamp01 ((d.x1 - 0) / (tau - 0)) * tau = d.x1 := by
      rw [sub_zero, sub_zero,
        clamp01_of_mem (div_nonneg (by linarith) htau.le) ((div_le_one htau).mpr h2),
        div_mul_cancel₀ _ (ne_of_gt htau)]
    ext
    · exact hx0
    · exact hx1
    · show max 0 (d.y0 - 0) = d.y0
      rw [sub_zero]
      exact max_eq_right h3
    · show max 0 (d.y1 - 0) = d.y1
      rw [sub_zero]
      exact max_eq_right (by linarith)
  exact ⟨key, key⟩

/-- Witness for C4 at tau = 7, ry = 3, d = (1, 2, 0, 3), x = (1, 2, 1, 2). -/
theorem spec_c4_witness :
    ((0 : ℚ) < 7 ∧ (0 : ℚ) ≤ 1 ∧ (1 : ℚ) ≤ 2 ∧ (2 : ℚ) ≤ 7 ∧ (0 : ℚ) ≤ 0 ∧ (0 : ℚ) ≤ 3) ∧
    (zoomTarget 7 (Rect.mk 1 2 0 3) (Rect.mk 0 7 0 3) = Rect.mk 1 2 0 3 ∧
      zoomStep 7 (Rect.mk 0 7 0 3) (zoomStep 7 (Rect.mk 1 2 1 2) (fun r => r))
        (Rect.mk 1 2 0 3) = Rect.mk 1 2 0 3) :=
  ⟨⟨by norm_num, by norm_num, by norm_num, by norm_num, by norm_num, by norm_num⟩,
    spec_c4 7 3 (Rect.mk 1 2 0 3) (Rect.mk 1 2 1 2) (by norm_num) (by norm_num) (by norm_num)
      (by norm_num) (by norm_num) (by norm_num)⟩

section FixRectLemmas

theorem fixRect_x {r : Rect} (h : ¬ r.x1 < r.x0) :
    (fixRect r).x0 = r.x0 ∧ (fixRect r).x1 = r.x1 := by
  unfold fixRect
  rw [if_neg h]
  by_cases hy : r.y1 < r.y0
  · rw [if_pos hy]
    exact ⟨rfl, rfl⟩
  · rw [if_neg hy]
    exact ⟨rfl, rfl⟩

theorem fixRect_y {r : Rect} (h : r.y0 ≤ r.y1) :
    (fixRect r).y0 = r.y0 ∧ (fixRect r).y1 = r.y1 := by
  unfold fixRect
  by_cases hx : r.x1 < r.x0
  · rw [if_pos hx, if_neg (by simpa using not_lt.mpr h)]
    exact ⟨rfl, rfl⟩
  · rw [if_neg hx, if_neg (not_lt.mpr h)]
    exact ⟨rfl, rfl⟩

theorem rect_positionSub (dy : ℚ) (n : Nat) (depth : Nat) (raw : Rect) (t : HN) :
    (positionSub dy n depth raw t).rect = fixRect raw := by
  cases t with
  | node nm v cs => rfl

theorem positionChildren_k0 (dy : ℚ) (n : Nat) (depth : Nat) (y0 y1 x0 : ℚ) (cs : List HN) :
    ∀ c ∈ positionChildren dy n depth y0 y1 0 x0 cs,
      (PNode.rect c).x0 = x0 ∧ (PNode.rect c).x1 = x0 := by
  induction cs generalizing x0 with
  | nil =>
    intro c hc
    simp [positionChildren] at hc
  | cons hd tl ih =>
    intro c hc
    rw [positionChildren] at hc
    rcases List.mem_cons.mp hc with h | h
    · subst h
      rw [rect_positionSub]
      have hdeg : ¬ (Rect.mk x0 (x0 + HN.value hd * 0) y0 y1).x1 <
          (Rect.mk x0 (x0 + HN.value hd * 0) y0 y1).x0 := by
        simp
      have := fixRect_x hdeg
      simpa using this
    · have := ih x0
      rw [show x0 + HN.value hd * 0 = x0 by ring] at h
      exact this c h

theorem zoomTargetJS_fin (tau : ℚ) (d p : Rect) (hp : p.x1 - p.x0 ≠ 0) :
    zoomTargetJS tau d p =
      JSRect.mk (.fin ((zoomTarget tau d p).x0)) (.fin ((zoomTarget tau d p).x1))
        (.fin ((zoomTarget tau d p).y0)) (.fin ((zoomTarget tau d p).y1)) := by
  unfold zoomTargetJS zoomTarget jsClamp01
  simp only [jsSub, jsDiv, if_neg hp, jsMin, jsMax, jsMul, clamp01]

end FixRectLemmas

/-- C7 (amended): the partition guards the division by a zero parent weight —
the children of a zero-weight parent are laid out with factor 0 and all
collapse to zero-width spans at the parent's start angle (finite, valid
rectangles); and for every focus with a positive angular span the zoom
arithmetic produces finite (non-NaN) components that agree with the exact
rational formula and are well ordered.  (When the focus span is zero the
claim fails: see the counterexample.) -/
theorem spec_c7_amended :
    (∀ (dy : ℚ) (n depth : Nat) (raw : Rect) (nm : String) (cs : List HN),
      ∀ c ∈ PNode.children (positionSub dy n depth raw (HN.node nm 0 cs)),
        (PNode.rect c).x0 = raw.x0 ∧ (PNode.rect c).x1 = raw.x0) ∧
    (∀ (tau : ℚ) (d p : Rect), p.x0 < p.x1 →
      zoomTargetJS tau d p =
        JSRect.mk (.fin ((zoomTarget tau d p).x0)) (.fin ((zoomTarget tau d p).x1))
          (.fin ((zoomTarget tau d p).y0)) (.fin ((zoomTarget tau d p).y1))) ∧
    (∀ (tau : ℚ) (d p : Rect), 0 ≤ tau → p.x0 < p.x1 → d.x0 ≤ d.x1 → d.y0 ≤ d.y1 →
      (zoomTarget tau d p).x0 ≤ (zoomTarget tau d p).x1 ∧
      (zoomTarget tau d p).y0 ≤ (zoomTarget tau d p).y1) := by
  refine ⟨?_, ?_, ?_⟩
  · intro dy n depth raw nm cs c hc
    rw [positionSub] at hc
    simp only [PNode.children, if_pos rfl] at hc
    exact positionChildren_k0 dy n depth _ _ raw.x0 cs c hc
  · intro tau d p hp
    exact zoomTargetJS_fin tau d p (ne_of_gt (sub_pos.mpr hp))
  · intro tau d p htau hp hdx hdy
    have h := zoomTarget_ordered tau d p htau hp hdx hdy
    exact ⟨h.2.1, h.2.2.2.2⟩

/-- C7 counterexample: with a focus of zero angular span (p.x0 = p.x1 = 0)
the JavaScript arithmetic computes 0/0 = NaN for the focus's own angular
start, clamps it to NaN and multiplies it to NaN — the claim that the zoom
never produces NaN on degenerate input is false. -/
theorem spec_c7_counterexample :
    (zoomTargetJS (710 / 113) (Rect.mk 0 0 0 0) (Rect.mk 0 0 0 0)).x0 = JSNum.nan := by
  unfold zoomTargetJS jsClamp01
  norm_num [jsSub, jsDiv, jsMin, jsMax, jsMul]

/-- Witness for the amended C7: the zero-weight dice at a concrete parent,
and the finite well-ordered zoom at tau = 7, d = (1, 3, 0, 2),
p = (0, 2, 0, 1). -/
theorem spec_c7_amended_witness :
    ((0 : ℚ) ≤ 7 ∧ (0 : ℚ) < 2 ∧ (1 : ℚ) ≤ 3 ∧ (0 : ℚ) ≤ 2) ∧
    (∀ c ∈ PNode.children (positionSub 1 2 0 (Rect.mk 0 5 0 (1 / 2))
        (HN.node "z" 0 [HN.node "a" 1 []])),
      (PNode.rect c).x0 = 0 ∧ (PNode.rect c).x1 = 0) ∧
    zoomTargetJS 7 (Rect.mk 1 3 0 2) (Rect.mk 0 2 0 1) =
      JSRect.mk (.fin ((zoomTarget 7 (Rect.mk 1 3 0 2) (Rect.mk 0 2 0 1)).x0))
        (.fin ((zoomTarget 7 (Rect.mk 1 3 0 2) (Rect.mk 0 2 0 1)).x1))
        (.fin ((zoomTarget 7 (Rect.mk 1 3 0 2) (Rect.mk 0 2 0 1)).y0))
        (.fin ((zoomTarget 7 (Rect.mk 1 3 0 2) (Rect.mk 0 2 0 1)).y1)) ∧
    ((zoomTarget 7 (Rect.mk 1 3 0 2) (Rect.mk 0 2 0 1)).x0 ≤
        (zoomTarget 7 (Rect.mk 1 3 0 2) (Rect.mk 0 2 0 1)).x1 ∧
      (zoomTarget 7 (Rect.mk 1 3 0 2) (Rect.mk 0 2 0 1)).y0 ≤
        (zoomTarget 7 (Rect.mk 1 3 0 2) (Rect.mk 0 2 0 1)).y1) :=
  ⟨⟨by norm_num, by norm_num, by norm_num, by norm_num⟩,
    fun c hc => spec_c7_amended.1 1 2 0 (Rect.mk 0 5 0 (1 / 2)) "z" [HN.node "a" 1 []] c hc,
    spec_c7_amended.2.1 7 (Rect.mk 1 3 0 2) (Rect.mk 0 2 0 1) (by norm_num),
    spec_c7_amended.2.2 7 (Rect.mk 1 3 0 2) (Rect.mk 0 2 0 1) (by norm_num) (by norm_num)
      (by norm_num) (by norm_num)⟩

section BandLemmas

theorem band_mono (dy : ℚ) (hdy : 0 ≤ dy) (n : Nat) (a b : ℚ) (hab : a ≤ b) :
    dy * a / (n : ℚ) ≤ dy * b / (n : ℚ) := by
  rcases Nat.eq_zero_or_pos n with h | h
  · subst h
    norm_num
  · have hn : (0 : ℚ) < (n : ℚ) := by exact_mod_cast h
    exact (div_le_div_iff_of_pos_right hn).mpr (mul_le_mul_of_nonneg_left hab hdy)

mutual
theorem pdescend_y (dy : ℚ) (hdy : 0 ≤ dy) (n : Nat) (t : HN) (depth : Nat) (raw : Rect)
    (h0 : raw.y0 = dy * (depth : ℚ) / (n : ℚ))
    (h1 : raw.y1 = dy * ((depth : ℚ) + 1) / (n : ℚ)) :
    ∀ pr ∈ pdescend depth (positionSub dy n depth raw t),
      pr.2.y0 = dy * (pr.1 : ℚ) / (n : ℚ) ∧ pr.2.y1 = dy * ((pr.1 : ℚ) + 1) / (n : ℚ) := by
  cases t with
  | node nm v cs =>
    intro pr hpr
    rw [positionSub, pdescend] at hpr
    rcases List.mem_cons.mp hpr with h | h
    · subst h
      have hy : raw.y0 ≤ raw.y1 := by
        rw [h0, h1]
        exact band_mono dy hdy n _ _ (by linarith)
      have hfix := fixRect_y hy
      exact ⟨by rw [hfix.1, h0], by rw [hfix.2, h1]⟩
    · exact pdescendF_y dy hdy n cs depth _ raw.x0 pr h

theorem pdescendF_y (dy : ℚ) (hdy : 0 ≤ dy) (n : Nat) (cs : List HN) (depth : Nat) (k x0 : ℚ) :
    ∀ pr ∈ pdescendF (depth + 1)
        (positionChildren dy n depth (dy * ((depth : ℚ) + 1) / (n : ℚ))
          (dy * ((depth : ℚ) + 2) / (n : ℚ)) k x0 cs),
      pr.2.y0 = dy * (pr.1 : ℚ) / (n : ℚ) ∧ pr.2.y1 = dy * ((pr.1 : ℚ) + 1) / (n : ℚ) := by
  cases cs with
  | nil =>
    intro pr hpr
    rw [positionChildren, pdescendF] at hpr
    exact absurd hpr (List.not_mem_nil pr)
  | cons c rest =>
    intro pr hpr
    rw [positionChildren, pdescendF] at hpr
    rcases List.mem_append.mp hpr with h | h
    · have e0 : dy * ((depth : ℚ) + 1) / (n : ℚ) = dy * ((depth + 1 : Nat) : ℚ) / (n : ℚ) := by
        push_cast
        ring_nf
      have e1 : dy * ((depth : ℚ) + 2) / (n : ℚ) = dy * (((depth + 1 : Nat) : ℚ) + 1) / (n : ℚ) := by
        push_cast
        ring_nf
      exact pdescend_y dy hdy n c (depth + 1)
        (Rect.mk x0 (x0 + HN.value c * k) (dy * ((depth : ℚ) + 1) / (n : ℚ))
          (dy * ((depth : ℚ) + 2) / (n : ℚ))) e0 e1 pr h
    · exact pdescendF_y dy hdy n rest depth k (x0 + HN.value c * k) pr h
end

end BandLemmas

/-- C3 (amended): the partition assigns the root the full angular span
[0, dx] but the radial band [0, dy/(maxDepth+1)] (not the zero-width band
[0, 0]); every node at depth d (the root included, with d = 0) gets
radiusInner = dy*d/(maxDepth+1) and radiusOuter = dy*(d+1)/(maxDepth+1) —
one ring per depth level, radius not weight-proportional. -/
theorem spec_c3_amended (dx dy : ℚ) (hdx : 0 ≤ dx) (hdy : 0 ≤ dy) (t : HN) :
    (d3partition dx dy t).rect.x0 = 0 ∧ (d3partition dx dy t).rect.x1 = dx ∧
    ∀ pr ∈ pdescend 0 (d3partition dx dy t),
      pr.2.y0 = dy * (pr.1 : ℚ) / ((heightHN t + 1 : Nat) : ℚ) ∧
      pr.2.y1 = dy * ((pr.1 : ℚ) + 1) / ((heightHN t + 1 : Nat) : ℚ) := by
  have hn : (0 : ℚ) < ((heightHN t + 1 : Nat) : ℚ) := by positivity
  have hroot : (d3partition dx dy t).rect =
      fixRect (Rect.mk 0 dx 0 (dy / ((heightHN t + 1 : Nat) : ℚ))) := by
    unfold d3partition
    exact rect_positionSub _ _ _ _ t
  have hxfix := fixRect_x (r := Rect.mk 0 dx 0 (dy / ((heightHN t + 1 : Nat) : ℚ)))
    (by simpa using not_lt.mpr hdx)
  refine ⟨?_, ?_, ?_⟩
  · rw [hroot, hxfix.1]
  · rw [hroot, hxfix.2]
  · unfold d3partition
    have e0 : (Rect.mk 0 dx 0 (dy / ((heightHN t + 1 : Nat) : ℚ))).y0 =
        dy * ((0 : Nat) : ℚ) / ((heightHN t + 1 : Nat) : ℚ) := by
      push_cast
      ring_nf
    have e1 : (Rect.mk 0 dx 0 (dy / ((heightHN t + 1 : Nat) : ℚ))).y1 =
        dy * (((0 : Nat) : ℚ) + 1) / ((heightHN t + 1 : Nat) : ℚ) := by
      push_cast
      ring_nf
    exact pdescend_y dy hdy (heightHN t + 1) t 0 _ e0 e1

/-- C3 counterexample: for the tree root -> A with R = 1 the code gives the
root the radial band [0, 1/2] (the claim says [0, 0]) and the depth-1 node
the band [1/2, 1] (the claim says radiusInner = R*(1-1)/maxDepth = 0). -/
theorem spec_c3_counterexample :
    (d3partition 7 1 c3tree).rect.y1 = 1 / 2 ∧
    (pdescend 0 (d3partition 7 1 c3tree)).getD 1 (0, Rect.mk 0 0 0 0) =
      (1, Rect.mk 0 7 (1 / 2) 1) ∧
    (1 : ℚ) / 2 ≠ 0 := by
  refine ⟨?_, ?_, by norm_num⟩
  · norm_num [c3tree, d3partition, heightHN, heightF, positionSub, positionChildren,
      fixRect, PNode.rect, HN.value]
  · norm_num [c3tree, d3partition, heightHN, heightF, positionSub, positionChildren,
      fixRect, PNode.rect, HN.value, pdescend, pdescendF]

/-- Witness for the amended C3 at dx = 7, dy = 1 on the one-child tree. -/
theorem spec_c3_amended_witness :
    ((0 : ℚ) ≤ 7 ∧ (0 : ℚ) ≤ 1) ∧
    ((d3partition 7 1 c3tree).rect.x0 = 0 ∧ (d3partition 7 1 c3tree).rect.x1 = 7 ∧
      ∀ pr ∈ pdescend 0 (d3partition 7 1 c3tree),
        pr.2.y0 = 1 * (pr.1 : ℚ) / ((heightHN c3tree + 1 : Nat) : ℚ) ∧
        pr.2.y1 = 1 * ((pr.1 : ℚ) + 1) / ((heightHN c3tree + 1 : Nat) : ℚ)) :=
  ⟨⟨by norm_num, by norm_num⟩, spec_c3_amended 7 1 (by norm_num) (by norm_num) c3tree⟩

/-- C8: when no node in the current node list has the stored path key, the
breadcrumb click handler invokes the zoom with the tree root as focus. -/
theorem spec_c8 (root : PNode) (key : String)
    (h : ∀ e ∈ crumbNodes root, keyOf e.1 ≠ key) :
    crumbTarget root key = root := by
  unfold crumbTarget
  have hnone : (crumbNodes root).find? (fun e => keyOf e.1 == key) = none := by
    rw [List.find?_eq_none]
    intro e he
    simpa using h e he
  rw [hnone]
  rfl

/-- Witness for C8: a single-node tree and a key matching nothing. -/
theorem spec_c8_witness :
    (∀ e ∈ crumbNodes (PNode.node "Wien" 1 (Rect.mk 0 0 0 0) []), keyOf e.1 ≠ "zzz") ∧
    crumbTarget (PNode.node "Wien" 1 (Rect.mk 0 0 0 0) []) "zzz" =
      PNode.node "Wien" 1 (Rect.mk 0 0 0 0) [] :=
  ⟨by simp [crumbNodes, descKeys, descKeysF],
    spec_c8 (PNode.node "Wien" 1 (Rect.mk 0 0 0 0) []) "zzz"
      (by simp [crumbNodes, descKeys, descKeysF])⟩

/-- C6: in the part_000 builder a label reuses an existing child under the
same parent exactly when the two labels are equal after normalization
(whitespace trimmed; the case-insensitive sentinels "null", "(blank)",
"(empty)" are blank and terminate the path like a null label). -/
theorem spec_c6 (a b : Cell) (na nb : String) (ha : normPB a = some na)
    (hb : normPB b = some nb) :
    (((addAt (addAt (BN.node "Wien" 0 []) [na] 1) [nb] 1).children.map BN.name =
        (addAt (BN.node "Wien" 0 []) [na] 1).children.map BN.name) ↔ normPB a = normPB b) ∧
    (∀ s : String, (lowerStr (trimStr s) = "null" ∨ lowerStr (trimStr s) = "(blank)" ∨
        lowerStr (trimStr s) = "(empty)") → normPB (some s) = none) ∧
    (∀ (c : Cell) (rest : List Cell), normPB c = none → rowPathPB (c :: rest) = []) ∧
    (∀ s : String, a = some s → na = trimStr s) := by
  refine ⟨?_, ?_, ?_, ?_⟩
  · have step : addAt (BN.node "Wien" 0 []) [na] 1 = BN.node "Wien" 0 [BN.node na 1 []] := by
      simp [addAt, setChild, bump]
    rw [step, ha, hb]
    by_cases hnab : na = nb
    · subst hnab
      simp [addAt, setChild, bump, BN.name, BN.children]
    · simp only [addAt, setChild, bump, BN.name, BN.children, if_neg hnab]
      constructor
      · intro hcon
        exact absurd (congrArg List.length hcon) (by simp)
      · intro hcon
        exact absurd (Option.some.inj hcon) hnab
  · intro s hs
    unfold normPB
    by_cases he : trimStr s = ""
    · simp [he]
    · simp only [he, if_false]
      rw [if_pos hs]
  · intro c rest hc
    rw [rowPathPB, hc]
  · intro s hs
    subst hs
    unfold normPB at ha
    by_cases he : trimStr s = ""
    · simp [he] at ha
    · simp only [he, if_false] at ha
      by_cases hl : lowerStr (trimStr s) = "null" ∨ lowerStr (trimStr s) = "(blank)" ∨
          lowerStr (trimStr s) = "(empty)"
      · rw [if_pos hl] at ha
        exact absurd ha (by simp)
      · rw [if_neg hl] at ha
        exact (Option.some.injEq _ _ ▸ ha).symm

/-- Witness for C6 with labels " A " and "A" (equal after trimming). -/
theorem spec_c6_witness :
    (normPB (some " A ") = some "A" ∧ normPB (some "A") = some "A") ∧
    ((((addAt (addAt (BN.node "Wien" 0 []) ["A"] 1) ["A"] 1).children.map BN.name =
        (addAt (BN.node "Wien" 0 []) ["A"] 1).children.map BN.name) ↔
      normPB (some " A ") = normPB (some "A")) ∧
    (∀ s : String, (lowerStr (trimStr s) = "null" ∨ lowerStr (trimStr s) = "(blank)" ∨
        lowerStr (trimStr s) = "(empty)") → normPB (some s) = none) ∧
    (∀ (c : Cell) (rest : List Cell), normPB c = none → rowPathPB (c :: rest) = []) ∧
    (∀ s : String, (some " A " : Cell) = some s → "A" = trimStr s)) :=
  ⟨⟨by decide, by decide⟩,
    spec_c6 (some " A ") (some "A") "A" "A" (by decide) (by decide)⟩

section PathLemmas

theorem takeWhile_nil_of_lastNonBlank_none :
    ∀ names : List String, lastNonBlank names = none →
      names.takeWhile (fun nm => !isBlankStr nm) = [] := by
  intro names h
  cases names with
  | nil => rfl
  | cons n rest =>
    rw [lastNonBlank] at h
    cases hr : lastNonBlank rest with
    | some k => rw [hr] at h; exact absurd h (by simp)
    | none =>
      rw [hr] at h
      by_cases hb : isBlankStr n
      · simp [List.takeWhile_cons, hb]
      · rw [if_neg hb] at h
        exact absurd h (by simp)

theorem walkPath_eq :
    ∀ (names : List String) (k : Nat), lastNonBlank names = some k →
      walkPath names k = names.takeWhile (fun nm => !isBlankStr nm) := by
  intro names
  induction names with
  | nil =>
    intro k h
    exact absurd h (by simp [lastNonBlank])
  | cons n rest ih =>
    intro k h
    rw [lastNonBlank] at h
    cases hr : lastNonBlank rest with
    | some kr =>
      rw [hr] at h
      have hk : k = kr + 1 := by
        have := Option.some.inj h
        omega
      subst hk
      by_cases hb : isBlankStr n
      · unfold walkPath
        simp [List.take_succ_cons, List.takeWhile_cons, hb]
      · unfold walkPath
        rw [List.take_succ_cons]
        rw [List.takeWhile_cons, List.takeWhile_cons]
        simp only [hb]
        have := ih kr hr
        unfold walkPath at this
        rw [this]
    | none =>
      rw [hr] at h
      by_cases hb : isBlankStr n
      · rw [if_pos hb] at h
        exact absurd h (by simp)
      · rw [if_neg hb] at h
        have hk : k = 0 := by
          have := Option.some.inj h
          omega
        subst hk
        unfold walkPath
        rw [List.take_succ_cons, List.take_zero]
        rw [List.takeWhile_cons, List.takeWhile_cons]
        simp only [hb]
        rw [takeWhile_nil_of_lastNonBlank_none rest hr]
        simp

theorem walkPath_head_blank {nm : String} {rest : List String} (k : Nat)
    (hb : isBlankStr nm = true) : walkPath (nm :: rest) k = [] := by
  unfold walkPath
  rw [List.take_succ_cons, List.takeWhile_cons]
  simp [hb]

theorem processRow_head_blank (hasValue : Bool) (t : BN) (r : Row)
    (h : headBlank (rowNames r) = true) :
    processRow hasValue t r = t ∨
      processRow hasValue t r = bump t (rowInc hasValue r) := by
  unfold processRow
  cases hl : lastNonBlank (rowNames r) with
  | none => exact Or.inl rfl
  | some k =>
    by_cases hz : rowInc hasValue r = 0
    · simp only [hz, if_pos rfl]
      exact Or.inl rfl
    · simp only [if_neg hz]
      right
      cases hn : rowNames r with
      | nil => rw [hn] at hl; exact absurd hl (by simp [lastNonBlank])
      | cons nm rest =>
        rw [hn] at h
        unfold headBlank at h
        rw [walkPath_head_blank k h]
        rfl

theorem processRow_congr (hasValue : Bool) (r : Row) (t u : BN) (hn : t.name = u.name)
    (hc : t.children = u.children) :
    (processRow hasValue t r).name = (processRow hasValue u r).name ∧
    (processRow hasValue t r).children = (processRow hasValue u r).children := by
  obtain ⟨tn, tv, tcs⟩ := t
  obtain ⟨un, uv, ucs⟩ := u
  simp only [BN.name, BN.children] at hn hc
  subst hn
  subst hc
  unfold processRow
  cases hl : lastNonBlank (rowNames r) with
  | none => exact ⟨rfl, rfl⟩
  | some k =>
    by_cases hz : rowInc hasValue r = 0
    · simp only [hz, if_pos rfl]
      exact ⟨rfl, rfl⟩
    · simp only [if_neg hz]
      cases hw : walkPath (rowNames r) k with
      | nil => simp [addAt, bump, BN.name, BN.children]
      | cons nm rest => simp [addAt, BN.name, BN.children]

theorem foldl_congr (hasValue : Bool) :
    ∀ (rows : List Row) (t u : BN), t.name = u.name → t.children = u.children →
      (rows.foldl (processRow hasValue) t).name = (rows.foldl (processRow hasValue) u).name ∧
      (rows.foldl (processRow hasValue) t).children =
        (rows.foldl (processRow hasValue) u).children := by
  intro rows
  induction rows with
  | nil =>
    intro t u hn hc
    exact ⟨hn, hc⟩
  | cons r rest ih =>
    intro t u hn hc
    have step := processRow_congr hasValue r t u hn hc
    exact ih (processRow hasValue t r) (processRow hasValue u r) step.1 step.2

end PathLemmas

/-- C5: the insertion path of every record is the prefix of its level names
strictly before the first blank one; and a record whose first label is blank
contributes nothing to the final tree — removing it from the input leaves
the produced hierarchy data unchanged (no node is created from any of its
labels). -/
theorem spec_c5 (hasValue : Bool) (r : Row) :
    (∀ k, lastNonBlank (rowNames r) = some k →
      walkPath (rowNames r) k = (rowNames r).takeWhile (fun nm => !isBlankStr nm)) ∧
    (headBlank (rowNames r) = true → ∀ rows1 rows2 : List Row,
      buildData hasValue (rows1 ++ r :: rows2) = buildData hasValue (rows1 ++ rows2)) := by
  constructor
  · intro k hk
    exact walkPath_eq (rowNames r) k hk
  · intro hb rows1 rows2
    unfold buildData buildRoot
    rw [List.foldl_append, List.foldl_append]
    have hmid := processRow_head_blank hasValue
      (rows1.foldl (processRow hasValue) (BN.node "root" 0 [])) r hb
    set m := rows1.foldl (processRow hasValue) (BN.node "root" 0 []) with hm
    have hrel : (processRow hasValue m r).name = m.name ∧
        (processRow hasValue m r).children = m.children := by
      rcases hmid with h | h
      · rw [h]
        exact ⟨rfl, rfl⟩
      · rw [h]
        obtain ⟨mn, mv, mcs⟩ := m
        simp [bump, BN.name, BN.children]
    rw [List.foldl_cons]
    have := foldl_congr hasValue rows2 (processRow hasValue m r) m hrel.1 hrel.2
    rw [this.2]

/-- Witness for C5: the record [null, "X"] (first label blank) is dropped
from the build, and the path of ["A", "", "C"] is ["A"]. -/
theorem spec_c5_witness :
    (lastNonBlank (rowNames (Row.mk [some "A", some " ", some "C"] none)) = some 2 ∧
      headBlank (rowNames (Row.mk [none, some "X"] none)) = true) ∧
    (walkPath (rowNames (Row.mk [some "A", some " ", some "C"] none)) 2 =
      (rowNames (Row.mk [some "A", some " ", some "C"] none)).takeWhile
        (fun nm => !isBlankStr nm) ∧
    buildData false ([Row.mk [some "A"] none] ++ Row.mk [none, some "X"] none ::
        [Row.mk [some "B"] none]) =
      buildData false ([Row.mk [some "A"] none] ++ [Row.mk [some "B"] none])) :=
  ⟨⟨by decide, by decide⟩,
    (spec_c5 false (Row.mk [some "A", some " ", some "C"] none)).1 2 (by decide),
    (spec_c5 false (Row.mk [none, some "X"] none)).2 (by decide)
      [Row.mk [some "A"] none] [Row.mk [some "B"] none]⟩

section WeightLemmas

theorem forestSum_setChild (inc : ℚ) (f : BN → BN) (hf : ∀ c, subSum (f c) = subSum c + inc) :
    ∀ (cs : List BN) (nm : String), forestSum (setChild cs nm f) = forestSum cs + inc := by
  intro cs
  induction cs with
  | nil =>
    intro nm
    rw [setChild]
    rw [forestSum, forestSum, forestSum]
    rw [hf (BN.node nm 0 [])]
    rw [subSum, forestSum]
    ring
  | cons c rest ih =>
    intro nm
    rw [setChild]
    by_cases hc : c.name = nm
    · rw [if_pos hc]
      rw [forestSum, forestSum, hf c]
      ring
    · rw [if_neg hc]
      rw [forestSum, forestSum, ih nm]
      ring

theorem subSum_addAt : ∀ (path : List String) (t : BN) (inc : ℚ),
    subSum (addAt t path inc) = subSum t + inc := by
  intro path
  induction path with
  | nil =>
    intro t inc
    obtain ⟨n, v, cs⟩ := t
    rw [addAt, bump, subSum, subSum]
    ring
  | cons nm rest ih =>
    intro t inc
    obtain ⟨n, v, cs⟩ := t
    rw [addAt, subSum, subSum]
    rw [forestSum_setChild inc (fun c => addAt c rest inc) (fun c => ih c inc) cs nm]
    ring

theorem children_addAt_cons (t : BN) (nm : String) (rest : List String) (inc : ℚ) :
    (addAt t (nm :: rest) inc).children =
      setChild t.children nm (fun c => addAt c rest inc) := by
  obtain ⟨n, v, cs⟩ := t
  rfl

theorem lastNonBlank_cons_nonblank {nm : String} (rest : List String)
    (h : isBlankStr nm = false) : ∃ k, lastNonBlank (nm :: rest) = some k := by
  rw [lastNonBlank]
  cases hr : lastNonBlank rest with
  | some kr => exact ⟨kr + 1, rfl⟩
  | none =>
    refine ⟨0, ?_⟩
    rw [if_neg (by simp [h])]

theorem walkPath_cons_nonblank {nm : String} (rest : List String) (k : Nat)
    (h : isBlankStr nm = false) :
    walkPath (nm :: rest) k =
      nm :: (rest.take k).takeWhile (fun s => !isBlankStr s) := by
  unfold walkPath
  rw [List.take_succ_cons, List.takeWhile_cons]
  simp [h]

end WeightLemmas

/-- C10: when a measure column is bound, a row whose measure is 0 or
unparseable (NaN) is skipped entirely — the build state is unchanged, so no
node is created and no weight added; when no measure is bound, every row
with a non-blank first label adds exactly 1 to the total weight accumulated
below the root. -/
theorem spec_c10 (t : BN) (r : Row) :
    ((r.measure = none ∨ r.measure = some 0) → processRow true t r = t) ∧
    (∀ nm rest, rowNames r = nm :: rest → isBlankStr nm = false →
      forestSum (processRow false t r).children = forestSum t.children + 1) := by
  constructor
  · intro h
    have hinc : rowInc true r = 0 := by
      rcases h with h | h
      · simp [rowInc, h]
      · simp [rowInc, h]
    unfold processRow
    cases hl : lastNonBlank (rowNames r) with
    | none => rfl
    | some k =>
      simp only [hinc]
      simp
  · intro nm rest hn hb
    have hinc : rowInc false r = 1 := by simp [rowInc]
    unfold processRow
    rw [hn]
    obtain ⟨k, hk⟩ := lastNonBlank_cons_nonblank rest hb
    rw [hk]
    simp only [hinc, if_neg (one_ne_zero (α := ℚ))]
    rw [walkPath_cons_nonblank rest k hb]
    rw [children_addAt_cons]
    rw [forestSum_setChild 1 _ (fun c => subSum_addAt _ c 1) t.children nm]

/-- Witness for C10: a NaN measure row is a no-op on a sample state, and the
countless build adds 1 below the root for the row ["A"]. -/
theorem spec_c10_witness :
    ((Row.mk [some "A"] none).measure = none ∧
      rowNames (Row.mk [some "A"] (some 5)) = ["A"] ∧ isBlankStr "A" = false) ∧
    (processRow true (BN.node "root" 0 [BN.node "Z" 2 []]) (Row.mk [some "A"] none) =
      BN.node "root" 0 [BN.node "Z" 2 []] ∧
    forestSum (processRow false (BN.node "root" 0 [BN.node "Z" 2 []])
        (Row.mk [some "A"] (some 5))).children =
      forestSum (BN.node "root" 0 [BN.node "Z" 2 []]).children + 1) :=
  ⟨⟨rfl, by decide, by decide⟩,
    (spec_c10 (BN.node "root" 0 [BN.node "Z" 2 []]) (Row.mk [some "A"] none)).1 (Or.inl rfl),
    (spec_c10 (BN.node "root" 0 [BN.node "Z" 2 []]) (Row.mk [some "A"] (some 5))).2
      "A" [] (by decide) (by decide)⟩

section SumLemmas

theorem valSum_nil : valSum [] = 0 := by
  simp [valSum]

theorem valSum_cons (a : HN) (l : List HN) : valSum (a :: l) = a.value + valSum l := by
  simp [valSum]

mutual
theorem sumTree_convert_val (bn : BN) : (sumTree (convert bn)).value = leafSum bn := by
  obtain ⟨n, v, cs⟩ := bn
  cases cs with
  | nil =>
    rw [convert, sumTree, leafSum]
    simp [HN.value, sumForest, valSum]
  | cons c rest =>
    rw [convert, sumTree, leafSum]
    simp only [HN.value, Option.getD_none]
    rw [sumForest_convertF_val (c :: rest)]
    ring
theorem sumForest_convertF_val (cs : List BN) :
    valSum (sumForest (convertF cs)) = leafForest cs := by
  cases cs with
  | nil =>
    rw [convertF, sumForest, leafForest, valSum_nil]
  | cons c rest =>
    rw [convertF, sumForest, leafForest, valSum_cons]
    rw [sumTree_convert_val c, sumForest_convertF_val rest]
end

mutual
theorem internal_convert (bn : BN) :
    ∀ t ∈ allHN (sumTree (convert bn)), t.children ≠ [] → t.value = valSum t.children := by
  obtain ⟨n, v, cs⟩ := bn
  intro t ht hne
  cases cs with
  | nil =>
    rw [convert, sumTree, sumForest, allHN, allHNF] at ht
    rcases List.mem_cons.mp ht with h | h
    · subst h
      simp [HN.children] at hne
    · exact absurd h (List.not_mem_nil t)
  | cons c rest =>
    rw [convert, sumTree, allHN] at ht
    rcases List.mem_cons.mp ht with h | h
    · subst h
      simp [HN.children, HN.value, Option.getD_none]
    · exact internalF_convertF (c :: rest) t h hne
theorem internalF_convertF (cs : List BN) :
    ∀ t ∈ allHNF (sumForest (convertF cs)), t.children ≠ [] → t.value = valSum t.children := by
  intro t ht hne
  cases cs with
  | nil =>
    rw [convertF, sumForest, allHNF] at ht
    exact absurd ht (List.not_mem_nil t)
  | cons c rest =>
    rw [convertF, sumForest, allHNF] at ht
    rcases List.mem_append.mp ht with h | h
    · exact internal_convert c t h hne
    · exact internalF_convertF rest t h hne
end

theorem mem_allHN_self (t : HN) : t ∈ allHN t := by
  obtain ⟨n, v, cs⟩ := t
  rw [allHN]
  exact List.mem_cons_self _ _

end SumLemmas

/-- C1 (amended): in every built tree each internal node's weight is the
exact sum of its children's weights (recursively); the root's weight equals
the sum of the accumulated leaf weights of the final build tree — a record
whose truncated path ends at a node that later acquired children (or whose
path is empty) has its weight discarded by the conversion, so the root
weight is not in general the sum of all contributing records' weights. -/
theorem spec_c1_amended (hasValue : Bool) (rows : List Row) :
    (∀ t ∈ allHN (sumTree (buildData hasValue rows)), t.children ≠ [] →
      t.value = valSum t.children) ∧
    (sumTree (buildData hasValue rows)).value =
      leafForest (buildRoot hasValue rows).children := by
  constructor
  · intro t ht hne
    unfold buildData at ht
    rw [sumTree, allHN] at ht
    rcases List.mem_cons.mp ht with h | h
    · subst h
      simp [HN.children, HN.value, Option.getD_none]
    · exact internalF_convertF (buildRoot hasValue rows).children t h hne
  · unfold buildData
    rw [sumTree]
    simp only [HN.value, Option.getD_none]
    rw [sumForest_convertF_val]
    ring

/-- C1 counterexample: for the records ["A"] (weight 1) and ["A", "B"]
(weight 1) — both contributing non-empty paths — the claim predicts root
weight 2, but node A becomes internal and its directly accumulated 1 is
dropped, so the computed root weight is 1. -/
theorem spec_c1_counterexample :
    (sumTree (buildData false c1rows)).value = 1 ∧ specRootWeight false c1rows = 2 ∧
    (sumTree (buildData false c1rows)).value ≠ specRootWeight false c1rows := by
  have bA : isBlankStr "A" = false := by decide
  have bB : isBlankStr "B" = false := by decide
  have tA : toText (some "A") = "A" := by decide
  have tB : toText (some "B") = "B" := by decide
  have h1 : (sumTree (buildData false c1rows)).value = 1 := by
    norm_num [c1rows, buildData, buildRoot, List.foldl, processRow, rowNames, tA, tB,
      lastNonBlank, bA, bB, rowInc, walkPath, addAt, setChild, bump, BN.children, BN.name,
      convert, convertF, sumTree, sumForest, valSum, HN.value]
  have h2 : specRootWeight false c1rows = 2 := by
    norm_num [c1rows, specRootWeight, rowNames, tA, tB, bA, bB, rowInc]
  refine ⟨h1, h2, ?_⟩
  rw [h1, h2]
  norm_num

/-- Witness for the amended C1 at the concrete record list c1rows. -/
theorem spec_c1_amended_witness :
    ((sumTree (buildData false c1rows)).children ≠ [] ∧
      sumTree (buildData false c1rows) ∈ allHN (sumTree (buildData false c1rows))) ∧
    ((sumTree (buildData false c1rows)).value =
        valSum (sumTree (buildData false c1rows)).children ∧
      (sumTree (buildData false c1rows)).value =
        leafForest (buildRoot false c1rows).children) :=
  ⟨⟨by
      have bA : isBlankStr "A" = false := by decide
      have bB : isBlankStr "B" = false := by decide
      have tA : toText (some "A") = "A" := by decide
      have tB : toText (some "B") = "B" := by decide
      norm_num [c1rows, buildData, buildRoot, List.foldl, processRow, rowNames, tA, tB,
        lastNonBlank, bA, bB, rowInc, walkPath, addAt, setChild, bump, BN.children, BN.name,
        convert, convertF, sumTree, sumForest, HN.children],
    mem_allHN_self _⟩,
    (spec_c1_amended false c1rows).1 _ (mem_allHN_self _) (by
      have bA : isBlankStr "A" = false := by decide
      have bB : isBlankStr "B" = false := by decide
      have tA : toText (some "A") = "A" := by decide
      have tB : toText (some "B") = "B" := by decide
      norm_num [c1rows, buildData, buildRoot, List.foldl, processRow, rowNames, tA, tB,
        lastNonBlank, bA, bB, rowInc, walkPath, addAt, setChild, bump, BN.children, BN.name,
        convert, convertF, sumTree, sumForest, HN.children]),
    (spec_c1_amended false c1rows).2⟩
